import Mathlib

/-!
Verification development for the FedNova baseline (non-IID data partitioning
engine and normalized federated aggregation strategy).

The repository provides `dataset.py` (the `load_datasets` pipeline) and
`main.py` (the round driver entry point).  The `DataPartitioner` class and the
`FedNova` strategy object are referenced by this code but their sources are not
part of the repository snapshot; where a claim depends on their behaviour they
are modelled from the specification (each such definition carries a
`Modelled from the spec:` doc comment).

Numeric tensors are embedded as rational-valued vectors (`Fin d → ℚ`); machine
floating point is abstracted to exact arithmetic, as the specification states
the algorithms' identities exactly.
-/

/-- Modelled from the spec: the seeded pseudo-random generator backing the
partitioner (the concrete generator is the external numpy RNG, absent from the
snapshot).  A deterministic linear congruential step on naturals. -/
def lcgStep (s : ℕ) : ℕ :=
  (s * 1103515245 + 12345) % 2147483648

/-- Modelled from the spec: "shuffle the full index set once using the seeded
generator".  A Fisher–Yates style seeded shuffle: repeatedly extract the
element at a generator-chosen position. -/
def shuffleGo (s : ℕ) (l : List ℕ) (acc : List ℕ) : List ℕ :=
  match l with
  | [] => acc.reverse
  | x :: xs =>
      shuffleGo (lcgStep s) ((x :: xs).eraseIdx (s % (xs.length + 1)))
        ((x :: xs).getD (s % (xs.length + 1)) 0 :: acc)
termination_by l.length
decreasing_by
  simp only [List.length_eraseIdx, List.length_cons]
  have h : s % (xs.length + 1) < xs.length + 1 := Nat.mod_lt _ (Nat.succ_pos _)
  simp only [if_pos h]
  omega

/-- The seeded shuffle of a list of indices. -/
def shuffle (seed : ℕ) (l : List ℕ) : List ℕ :=
  shuffleGo seed l []

theorem shuffleGo_perm (s : ℕ) (l acc : List ℕ) :
    (shuffleGo s l acc).Perm (l ++ acc) := by
  induction s, l, acc using shuffleGo.induct with
  | case1 s acc => simp [shuffleGo, List.reverse_perm]
  | case2 s acc x xs ih =>
      rw [shuffleGo]
      have hi : s % (xs.length + 1) < (x :: xs).length :=
        Nat.mod_lt _ (Nat.succ_pos _)
      refine ih.trans ?_
      have hget : (x :: xs).getD (s % (xs.length + 1)) 0 = (x :: xs)[s % (xs.length + 1)] := by
        simp [List.getD_eq_getElem?_getD, List.getElem?_eq_getElem hi]
      have hperm : ((x :: xs).getD (s % (xs.length + 1)) 0 ::
          (x :: xs).eraseIdx (s % (xs.length + 1))).Perm (x :: xs) := by
        rw [hget]
        have h1 : (x :: xs).Perm ((x :: xs)[s % (xs.length + 1)] ::
            (x :: xs).erase ((x :: xs)[s % (xs.length + 1)])) :=
          List.perm_cons_erase (List.getElem_mem hi)
        exact (h1.trans (List.Perm.cons _ (List.erase_getElem hi))).symm
      exact List.perm_middle.trans (hperm.append_right acc)

theorem shuffle_perm (seed : ℕ) (l : List ℕ) : (shuffle seed l).Perm l := by
  simpa using shuffleGo_perm seed l []

/-- Floor allocation: each requested relative size `q` gets `⌊q * M⌋` samples. -/
def floorAlloc (M : ℕ) (sizes : List ℚ) : List ℕ :=
  sizes.map fun q => Nat.floor (q * (M : ℚ))

/-- Distribute a remainder of `r` samples by giving one extra sample to each of
the first `r` slices. -/
def distributeRemainder : ℕ → List ℕ → List ℕ
  | 0, ls => ls
  | _ + 1, [] => []
  | r + 1, n :: ns => (n + 1) :: distributeRemainder r ns

/-- Modelled from the spec: slice lengths "proportional to the requested
relative sizes (using floor allocation and distributing the remainder
deterministically to the first slices, so total length is exact)". -/
def allocLengths (M : ℕ) (sizes : List ℚ) : List ℕ :=
  distributeRemainder (M - (floorAlloc M sizes).sum) (floorAlloc M sizes)

theorem distributeRemainder_length (r : ℕ) (ls : List ℕ) :
    (distributeRemainder r ls).length = ls.length := by
  induction r generalizing ls with
  | zero => rfl
  | succ r ih =>
      cases ls with
      | nil => rfl
      | cons n ns => simpa [distributeRemainder] using ih ns

theorem distributeRemainder_sum (r : ℕ) (ls : List ℕ) (h : r ≤ ls.length) :
    (distributeRemainder r ls).sum = ls.sum + r := by
  induction r generalizing ls with
  | zero => simp [distributeRemainder]
  | succ r ih =>
      cases ls with
      | nil => simp at h
      | cons n ns =>
          have hr : r ≤ ns.length := by simpa using h
          simp only [distributeRemainder, List.sum_cons, ih ns hr]
          omega

theorem allocLengths_length (M : ℕ) (sizes : List ℚ) :
    (allocLengths M sizes).length = sizes.length := by
  simp [allocLengths, distributeRemainder_length, floorAlloc]

theorem sum_map_mul_natCast (l : List ℚ) (M : ℕ) :
    (l.map fun q => q * (M : ℚ)).sum = l.sum * (M : ℚ) := by
  induction l with
  | nil => simp
  | cons a l ih =>
      simp only [List.map_cons, List.sum_cons, ih]
      ring

theorem floorAlloc_sum_le (M : ℕ) (sizes : List ℚ)
    (hnn : ∀ q ∈ sizes, 0 ≤ q) (hsum : sizes.sum = 1) :
    (floorAlloc M sizes).sum ≤ M := by
  have hcast : (((floorAlloc M sizes).sum : ℕ) : ℚ) ≤ (M : ℚ) := by
    rw [Nat.cast_list_sum]
    have h1 : ((floorAlloc M sizes).map (fun n : ℕ => (n : ℚ))).sum
        = (sizes.map fun q => ((Nat.floor (q * (M : ℚ)) : ℕ) : ℚ)).sum := by
      simp [floorAlloc, List.map_map, Function.comp_def]
    rw [show (List.map Nat.cast (floorAlloc M sizes)).sum
        = ((floorAlloc M sizes).map (fun n : ℕ => (n : ℚ))).sum from rfl, h1]
    have h2 : (sizes.map fun q => ((Nat.floor (q * (M : ℚ)) : ℕ) : ℚ)).sum
        ≤ (sizes.map fun q => q * (M : ℚ)).sum := by
      apply List.sum_le_sum
      intro q hq
      have hq0 : 0 ≤ q := hnn q hq
      exact Nat.floor_le (by positivity)
    calc (sizes.map fun q => ((Nat.floor (q * (M : ℚ)) : ℕ) : ℚ)).sum
        ≤ (sizes.map fun q => q * (M : ℚ)).sum := h2
      _ = sizes.sum * (M : ℚ) := sum_map_mul_natCast sizes M
      _ = (M : ℚ) := by rw [hsum, one_mul]
  exact_mod_cast hcast

theorem floorAlloc_sum_lt (M : ℕ) (sizes : List ℚ)
    (hsum : sizes.sum = 1) :
    M < (floorAlloc M sizes).sum + sizes.length := by
  have hne : sizes ≠ [] := by
    intro h
    rw [h] at hsum
    simp at hsum
  have hpt : ∀ q ∈ sizes, q * (M : ℚ) < ((Nat.floor (q * (M : ℚ)) : ℕ) : ℚ) + 1 :=
    fun q _ => Nat.lt_floor_add_one _
  have hstrict : (sizes.map fun q => q * (M : ℚ)).sum
      < (sizes.map fun q => ((Nat.floor (q * (M : ℚ)) : ℕ) : ℚ) + 1).sum := by
    apply List.sum_lt_sum
    · exact fun q hq => le_of_lt (hpt q hq)
    · obtain ⟨q, hq⟩ := List.exists_mem_of_ne_nil sizes hne
      exact ⟨q, hq, hpt q hq⟩
  have hleft : (sizes.map fun q => q * (M : ℚ)).sum = (M : ℚ) := by
    rw [sum_map_mul_natCast, hsum, one_mul]
  have hsplit : ∀ l : List ℚ, (l.map fun q => ((Nat.floor (q * (M : ℚ)) : ℕ) : ℚ) + 1).sum
      = (l.map fun q => ((Nat.floor (q * (M : ℚ)) : ℕ) : ℚ)).sum + l.length := by
    intro l
    induction l with
    | nil => simp
    | cons a l ihl =>
        simp only [List.map_cons, List.sum_cons, ihl, List.length_cons]
        push_cast
        ring
  have hright : (sizes.map fun q => ((Nat.floor (q * (M : ℚ)) : ℕ) : ℚ) + 1).sum
      = (((floorAlloc M sizes).sum : ℕ) : ℚ) + sizes.length := by
    rw [hsplit, Nat.cast_list_sum]
    congr 1
    simp [floorAlloc, List.map_map, Function.comp_def]
  have hcast : (M : ℚ) < (((floorAlloc M sizes).sum : ℕ) : ℚ) + sizes.length := by
    rw [← hleft, ← hright]
    exact hstrict
  exact_mod_cast hcast

theorem allocLengths_sum (M : ℕ) (sizes : List ℚ)
    (hnn : ∀ q ∈ sizes, 0 ≤ q) (hsum : sizes.sum = 1) :
    (allocLengths M sizes).sum = M := by
  have hle := floorAlloc_sum_le M sizes hnn hsum
  have hlt := floorAlloc_sum_lt M sizes hsum
  have hlen : (floorAlloc M sizes).length = sizes.length := by simp [floorAlloc]
  have hr : M - (floorAlloc M sizes).sum ≤ (floorAlloc M sizes).length := by omega
  rw [allocLengths, distributeRemainder_sum _ _ hr]
  omega

/-- Cut a list of indices into consecutive slices of the given lengths
(one slice per client). -/
def cutSlices : List ℕ → List ℕ → List (List ℕ)
  | [], _ => []
  | n :: ns, l => l.take n :: cutSlices ns (l.drop n)

theorem cutSlices_length (ns : List ℕ) (l : List ℕ) :
    (cutSlices ns l).length = ns.length := by
  induction ns generalizing l with
  | nil => rfl
  | cons n ns ih => simp [cutSlices, ih]

theorem cutSlices_flatten (ns : List ℕ) (l : List ℕ) (h : l.length ≤ ns.sum) :
    (cutSlices ns l).flatten = l := by
  induction ns generalizing l with
  | nil =>
      simp only [List.sum_nil, Nat.le_zero, List.length_eq_zero] at h
      simp [cutSlices, h]
  | cons n ns ih =>
      simp only [List.sum_cons] at h
      simp only [cutSlices, List.flatten_cons]
      rw [ih (l.drop n) (by simp only [List.length_drop]; omega)]
      exact List.take_append_drop n l

theorem cutSlices_map_length (ns : List ℕ) (l : List ℕ) (h : ns.sum ≤ l.length) :
    (cutSlices ns l).map List.length = ns := by
  induction ns generalizing l with
  | nil => rfl
  | cons n ns ih =>
      simp only [List.sum_cons] at h
      simp only [cutSlices, List.map_cons]
      rw [List.length_take, ih (l.drop n) (by simp [List.length_drop]; omega)]
      congr 1
      omega

/-- Modelled from the spec: IID mode of the `DataPartitioner` — "shuffle the
full index set once using the seeded generator, then cut it into `N` contiguous
slices whose lengths are proportional to the requested relative sizes". -/
def iidPartition (seed M : ℕ) (sizes : List ℚ) : List (List ℕ) :=
  cutSlices (allocLengths M sizes) (shuffle seed (List.range M))

/-- The per-class data a non-IID partition consumes: the dataset indices of
each class, and the Dirichlet proportion vector drawn for each class. -/
structure ClassData where
  classLists : List (List ℕ)
  props : List (List ℚ)
deriving Repr, DecidableEq

/-- Modelled from the spec: non-IID mode of the `DataPartitioner` — "for each
class label, draw an `N`-dimensional proportion vector ...; allocate that
class's samples to clients in proportion to the drawn vector"; client `i`
receives the `i`-th slice of every class's allocation. -/
def nonIIDPartition (seed : ℕ) (N : ℕ) (cd : ClassData) : List (List ℕ) :=
  let cuts := List.zipWith
    (fun cls p => cutSlices (allocLengths cls.length p) (shuffle seed cls))
    cd.classLists cd.props
  (List.range N).map fun i => (cuts.map fun row => row.getD i []).flatten

/-- Modelled from the spec: the `DataPartitioner`'s partition computation,
dispatching on the non-IID flag. -/
def dataPartition (seed M : ℕ) (sizes : List ℚ) (isNonIID : Bool)
    (cd : ClassData) : List (List ℕ) :=
  if isNonIID then nonIIDPartition seed sizes.length cd
  else iidPartition seed M sizes

theorem iidPartition_flatten (seed M : ℕ) (sizes : List ℚ)
    (hnn : ∀ q ∈ sizes, 0 ≤ q) (hsum : sizes.sum = 1) :
    (iidPartition seed M sizes).flatten = shuffle seed (List.range M) := by
  apply cutSlices_flatten
  rw [allocLengths_sum M sizes hnn hsum, (shuffle_perm seed (List.range M)).length_eq]
  simp

theorem iidPartition_flatten_perm (seed M : ℕ) (sizes : List ℚ)
    (hnn : ∀ q ∈ sizes, 0 ≤ q) (hsum : sizes.sum = 1) :
    ((iidPartition seed M sizes).flatten).Perm (List.range M) := by
  rw [iidPartition_flatten seed M sizes hnn hsum]
  exact shuffle_perm seed (List.range M)

theorem getD_range_eq (row : List (List ℕ)) :
    (List.range row.length).map (fun i => row.getD i []) = row := by
  induction row with
  | nil => rfl
  | cons r rs ih =>
      rw [List.length_cons, List.range_succ_eq_map, List.map_cons, List.map_map,
        List.getD_cons_zero]
      have hcomp : (fun i => (r :: rs).getD i []) ∘ Nat.succ = fun i => rs.getD i [] := by
        funext i
        simp [Function.comp_def]
      rw [hcomp, ih]

theorem flatten_map_append_perm (idx : List ℕ) (f g : ℕ → List ℕ) :
    ((idx.map fun i => f i ++ g i).flatten).Perm
      ((idx.map f).flatten ++ (idx.map g).flatten) := by
  induction idx with
  | nil => simp
  | cons a idx ih =>
      simp only [List.map_cons, List.flatten_cons]
      refine ((ih.append_left (f a ++ g a))).trans ?_
      rw [List.append_assoc, List.append_assoc]
      exact (List.perm_append_comm_assoc (g a) ((idx.map f).flatten)
        ((idx.map g).flatten)).append_left (f a)

theorem transpose_flatten_perm (N : ℕ) (cuts : List (List (List ℕ)))
    (hrow : ∀ row ∈ cuts, row.length = N) :
    (((List.range N).map fun i => (cuts.map fun row => row.getD i []).flatten).flatten).Perm
      ((cuts.map List.flatten).flatten) := by
  induction cuts with
  | nil => simp
  | cons row cuts ih =>
      have hlen : row.length = N := hrow row (by simp)
      have hih := ih (fun r hr => hrow r (by simp [hr]))
      simp only [List.map_cons, List.getD_cons_zero, List.flatten_cons]
      refine (flatten_map_append_perm (List.range N) _ _).trans ?_
      have hfirst : ((List.range N).map fun i => row.getD i []).flatten = row.flatten := by
        rw [← hlen, getD_range_eq]
      rw [hfirst]
      exact hih.append_left row.flatten


theorem flatten_map_shuffle_perm (seed : ℕ) (L : List (List ℕ)) :
    ((L.map (shuffle seed)).flatten).Perm L.flatten := by
  induction L with
  | nil => simp
  | cons a L ih =>
      simp only [List.map_cons, List.flatten_cons]
      exact (shuffle_perm seed a).append ih

theorem cutAll_flatten (seed : ℕ) (cls : List (List ℕ)) (ps : List (List ℚ))
    (hlen : ps.length = cls.length)
    (hps : ∀ p ∈ ps, (∀ q ∈ p, 0 ≤ q) ∧ p.sum = 1) :
    List.zipWith
      (fun c p => (cutSlices (allocLengths c.length p) (shuffle seed c)).flatten)
      cls ps = cls.map (shuffle seed) := by
  induction cls generalizing ps with
  | nil => simp
  | cons c cls ih =>
      cases ps with
      | nil => simp at hlen
      | cons p ps =>
          simp only [List.zipWith_cons_cons, List.map_cons]
          have hhead : (cutSlices (allocLengths c.length p) (shuffle seed c)).flatten
              = shuffle seed c := by
            apply cutSlices_flatten
            obtain ⟨hnn, hsum⟩ := hps p (by simp)
            rw [allocLengths_sum _ _ hnn hsum, (shuffle_perm seed c).length_eq]
          rw [hhead, ih ps (by simpa using hlen) (fun p hp => hps p (by simp [hp]))]

theorem nonIIDPartition_flatten_perm (seed M N : ℕ) (cd : ClassData)
    (hlen : cd.props.length = cd.classLists.length)
    (hprops : ∀ p ∈ cd.props, (∀ q ∈ p, 0 ≤ q) ∧ p.sum = 1 ∧ p.length = N)
    (hclasses : (cd.classLists.flatten).Perm (List.range M)) :
    ((nonIIDPartition seed N cd).flatten).Perm (List.range M) := by
  unfold nonIIDPartition
  set cuts := List.zipWith
    (fun cls p => cutSlices (allocLengths cls.length p) (shuffle seed cls))
    cd.classLists cd.props with hcuts
  have hrow : ∀ row ∈ cuts, row.length = N := by
    intro row hr
    rw [hcuts] at hr
    obtain ⟨i, hi, hget⟩ := List.getElem_of_mem hr
    rw [List.getElem_zipWith] at hget
    have hi2 : i < cd.props.length := by
      have := hi
      simp only [List.length_zipWith] at this
      omega
    have hpmem : cd.props[i] ∈ cd.props := List.getElem_mem hi2
    rw [← hget, cutSlices_length, allocLengths_length]
    exact (hprops _ hpmem).2.2
  refine (transpose_flatten_perm N cuts hrow).trans ?_
  have hflat : cuts.map List.flatten
      = List.zipWith
          (fun cls p => (cutSlices (allocLengths cls.length p) (shuffle seed cls)).flatten)
          cd.classLists cd.props := by
    rw [hcuts, List.map_zipWith]
  rw [hflat, cutAll_flatten seed cd.classLists cd.props hlen
    (fun p hp => ⟨(hprops p hp).1, (hprops p hp).2.1⟩)]
  exact (flatten_map_shuffle_perm seed cd.classLists).trans hclasses

theorem dataPartition_length (seed M : ℕ) (sizes : List ℚ) (isNonIID : Bool)
    (cd : ClassData) :
    (dataPartition seed M sizes isNonIID cd).length = sizes.length := by
  cases isNonIID with
  | false => simp [dataPartition, iidPartition, cutSlices_length, allocLengths_length]
  | true => simp [dataPartition, nonIIDPartition]

/-- C1: for every valid partitioning input (dataset of size `M`, `N` clients),
the `N` partitions produced by the Partitioner are pairwise disjoint, their
union is exactly the full dataset index set (no index missing or duplicated),
and the partition sizes sum to `M`. -/
theorem dataPartition_partitions_exact (seed M : ℕ) (sizes : List ℚ)
    (isNonIID : Bool) (cd : ClassData)
    (hiid : isNonIID = false → (∀ q ∈ sizes, 0 ≤ q) ∧ sizes.sum = 1)
    (hnon : isNonIID = true →
      cd.props.length = cd.classLists.length ∧
      (∀ p ∈ cd.props, (∀ q ∈ p, 0 ≤ q) ∧ p.sum = 1 ∧ p.length = sizes.length) ∧
      (cd.classLists.flatten).Perm (List.range M)) :
    ((dataPartition seed M sizes isNonIID cd).flatten).Perm (List.range M) ∧
    (dataPartition seed M sizes isNonIID cd).Pairwise (fun a b => ∀ x ∈ a, x ∉ b) ∧
    ((dataPartition seed M sizes isNonIID cd).map List.length).sum = M ∧
    (dataPartition seed M sizes isNonIID cd).length = sizes.length := by
  have hperm : ((dataPartition seed M sizes isNonIID cd).flatten).Perm (List.range M) := by
    cases isNonIID with
    | false =>
        obtain ⟨hnn, hsum⟩ := hiid rfl
        simpa [dataPartition] using iidPartition_flatten_perm seed M sizes hnn hsum
    | true =>
        obtain ⟨h1, h2, h3⟩ := hnon rfl
        simpa [dataPartition] using
          nonIIDPartition_flatten_perm seed M sizes.length cd h1 h2 h3
  have hnodup : ((dataPartition seed M sizes isNonIID cd).flatten).Nodup :=
    (List.nodup_range M).perm hperm.symm
  have hpair : (dataPartition seed M sizes isNonIID cd).Pairwise
      (fun a b => ∀ x ∈ a, x ∉ b) := by
    refine ((List.nodup_flatten.mp hnodup).2).imp ?_
    intro a b hdisj x hxa hxb
    exact hdisj hxa hxb
  have hsum : ((dataPartition seed M sizes isNonIID cd).map List.length).sum = M := by
    rw [← List.length_flatten, hperm.length_eq, List.length_range]
  exact ⟨hperm, hpair, hsum, dataPartition_length seed M sizes isNonIID cd⟩

/-- Witness for C1 at a concrete non-IID input: `M = 5`, two clients, two
classes, concrete Dirichlet draws. -/
theorem dataPartition_partitions_exact_witness :
    ((dataPartition 7 5 [1/2, 1/2] true ⟨[[0, 1, 2], [3, 4]], [[1/3, 2/3], [1/2, 1/2]]⟩).flatten).Perm
        (List.range 5) ∧
    (dataPartition 7 5 [1/2, 1/2] true ⟨[[0, 1, 2], [3, 4]], [[1/3, 2/3], [1/2, 1/2]]⟩).Pairwise
        (fun a b => ∀ x ∈ a, x ∉ b) ∧
    ((dataPartition 7 5 [1/2, 1/2] true ⟨[[0, 1, 2], [3, 4]], [[1/3, 2/3], [1/2, 1/2]]⟩).map
        List.length).sum = 5 ∧
    (dataPartition 7 5 [1/2, 1/2] true ⟨[[0, 1, 2], [3, 4]], [[1/3, 2/3], [1/2, 1/2]]⟩).length
        = ([1/2, 1/2] : List ℚ).length :=
  dataPartition_partitions_exact 7 5 [1/2, 1/2] true
    ⟨[[0, 1, 2], [3, 4]], [[1/3, 2/3], [1/2, 1/2]]⟩
    (fun h => absurd h (by decide))
    (fun _ => by
      refine ⟨by decide, ?_, by decide⟩
      intro p hp
      simp only [List.mem_cons, List.not_mem_nil, or_false] at hp
      rcases hp with rfl | rfl
      · exact ⟨by intro q hq; fin_cases hq <;> norm_num, by norm_num, by norm_num⟩
      · exact ⟨by intro q hq; fin_cases hq <;> norm_num, by norm_num, by norm_num⟩)

/-- Modelled from the spec: `a_i` is "a closed-form function of `tau_i` and
`mu`; when `mu = 0`, `a_i = tau_i`" — the accumulated effective step size of a
local SGD-with-momentum trajectory.  `momentumSteps mu k` returns the local
momentum buffer coefficient and the accumulated normalizer after `k` steps. -/
def momentumSteps (mu : ℚ) : ℕ → ℚ × ℚ
  | 0 => (0, 0)
  | k + 1 =>
      let p := momentumSteps mu k
      (mu * p.1 + 1, p.2 + (mu * p.1 + 1))

/-- The FedNova per-client normalization coefficient `a_i`. -/
def aCoeff (mu : ℚ) (tau : ℕ) : ℚ :=
  (momentumSteps mu tau).2

theorem aCoeff_zero_mu (tau : ℕ) : aCoeff 0 tau = tau := by
  induction tau with
  | zero => rfl
  | succ k ih =>
      simp only [aCoeff, momentumSteps] at *
      rw [ih]
      push_cast
      ring

theorem momentumSteps_bounds (mu : ℚ) (hmu : 0 ≤ mu) (k : ℕ) :
    0 ≤ (momentumSteps mu k).1 ∧ (k : ℚ) ≤ (momentumSteps mu k).2 := by
  induction k with
  | zero => simp [momentumSteps]
  | succ k ih =>
      obtain ⟨h1, h2⟩ := ih
      constructor
      · simp only [momentumSteps]
        positivity
      · simp only [momentumSteps]
        push_cast
        nlinarith

theorem aCoeff_pos (mu : ℚ) (tau : ℕ) (hmu : 0 ≤ mu) (htau : tau ≠ 0) :
    0 < aCoeff mu tau := by
  have h := (momentumSteps_bounds mu hmu tau).2
  have : (1 : ℚ) ≤ (tau : ℚ) := by
    have : 1 ≤ tau := Nat.one_le_iff_ne_zero.mpr htau
    exact_mod_cast this
  unfold aCoeff
  linarith

/-- A client update record (§3 of the spec): identity, per-parameter delta,
number of local optimizer steps, and data-weight.  Parameter tensors are
flattened into a `d`-dimensional rational vector. -/
structure UpdateRecord (d : ℕ) where
  clientId : ℕ
  delta : Fin d → ℚ
  localSteps : ℕ
  weight : ℚ

/-- The global model state: parameter vector and server-side momentum buffer. -/
structure GlobalState (d : ℕ) where
  params : Fin d → ℚ
  momentum : Fin d → ℚ

/-- Error raised when a round has no valid client record. -/
inductive AggregationError where
  | noValidRecords
deriving Repr, DecidableEq

/-- The round's structurally valid records: a record with `local_steps_i = 0`
is invalid and excluded. -/
def validRecords {d : ℕ} (records : List (UpdateRecord d)) : List (UpdateRecord d) :=
  records.filter fun r => r.localSteps != 0

/-- Total data-weight of a record list (the renormalization denominator). -/
def totalWeight {d : ℕ} (records : List (UpdateRecord d)) : ℚ :=
  (records.map fun r => r.weight).sum

/-- Modelled from the spec: the effective normalized gradient
`g_bar = Σ_i (w_i / W) * (delta_i / a_i)`, weights renormalized over the
records actually reporting. -/
def normalizedGrad (mu : ℚ) {d : ℕ} (records : List (UpdateRecord d)) : Fin d → ℚ :=
  fun j => (records.map fun r =>
    (r.weight / totalWeight records) * (r.delta j / aCoeff mu r.localSteps)).sum

/-- Modelled from the spec: the weighted effective step count
`tau_eff = Σ_i (w_i / W) * a_i`. -/
def tauEff (mu : ℚ) {d : ℕ} (records : List (UpdateRecord d)) : ℚ :=
  (records.map fun r => (r.weight / totalWeight records) * aCoeff mu r.localSteps).sum

/-- Modelled from the spec: the FedNova aggregation (§4.2).  Invalid records
are dropped; if none remain the round fails with `AggregationError`; otherwise
the momentum buffer is updated to `v = gmf * v_old + g_bar` and the new
parameters are `old - tau_eff * v`. -/
def aggregate (mu gmf : ℚ) {d : ℕ} (s : GlobalState d)
    (records : List (UpdateRecord d)) : Except AggregationError (GlobalState d) :=
  if (validRecords records).isEmpty then
    Except.error AggregationError.noValidRecords
  else
    Except.ok
      { params := fun j => s.params j -
          tauEff mu (validRecords records) *
            (gmf * s.momentum j + normalizedGrad mu (validRecords records) j)
        momentum := fun j => gmf * s.momentum j + normalizedGrad mu (validRecords records) j }

/-- Modelled from the spec: one driver round keeps the previous global state
untouched when aggregation fails. -/
def runRound (mu gmf : ℚ) {d : ℕ} (s : GlobalState d)
    (records : List (UpdateRecord d)) : GlobalState d × Option AggregationError :=
  match aggregate mu gmf s records with
  | Except.ok s2 => (s2, none)
  | Except.error e => (s, some e)

theorem renormalized_weights_sum_one {d : ℕ} (records : List (UpdateRecord d))
    (hW : totalWeight records ≠ 0) :
    (records.map fun r => r.weight / totalWeight records).sum = 1 := by
  have h1 : (records.map fun r => r.weight / totalWeight records)
      = records.map fun r => r.weight * (totalWeight records)⁻¹ := by
    simp [div_eq_mul_inv]
  rw [h1, List.sum_map_mul_right, ← totalWeight, mul_inv_cancel₀ hW]

theorem totalWeight_pos {d : ℕ} (records : List (UpdateRecord d))
    (hw : ∀ r ∈ records, 0 < r.weight) (hne : records ≠ []) :
    0 < totalWeight records := by
  apply List.sum_pos
  · intro x hx
    obtain ⟨r, hr, rfl⟩ := List.mem_map.mp hx
    exact hw r hr
  · simpa using hne

/-- The data-weighted average of raw client deltas applied to the global
model — the FedAvg update as the spec words it, for comparison with the
FedNova aggregation. -/
def fedAvgParams {d : ℕ} (s : GlobalState d) (records : List (UpdateRecord d)) :
    Fin d → ℚ :=
  fun j => s.params j -
    (records.map fun r => (r.weight / totalWeight records) * r.delta j).sum

/-- C2: in a round where all reporting clients have equal `local_steps_i` and
the global momentum factor `gmf = 0`, the FedNova aggregation result equals
exactly the data-weighted average of the clients' raw deltas applied to the
global model (FedNova degenerates to FedAvg). -/
theorem aggregate_equal_steps_fedavg (mu : ℚ) {d : ℕ} (s : GlobalState d)
    (records : List (UpdateRecord d)) (tau : ℕ)
    (hmu : 0 ≤ mu) (htau : tau ≠ 0)
    (hsteps : ∀ r ∈ records, r.localSteps = tau)
    (hw : ∀ r ∈ records, 0 < r.weight)
    (hne : records ≠ []) :
    (aggregate mu 0 s records).map (fun st => st.params)
      = Except.ok (fedAvgParams s records) := by
  have hvalid : validRecords records = records := by
    rw [validRecords, List.filter_eq_self]
    intro r hr
    simp [hsteps r hr, htau]
  have hW : totalWeight records ≠ 0 := (totalWeight_pos records hw hne).ne'
  have ha : aCoeff mu tau ≠ 0 := (aCoeff_pos mu tau hmu htau).ne'
  rw [aggregate, hvalid, if_neg (by simpa [List.isEmpty_iff] using hne)]
  simp only [Except.map]
  congr 1
  funext j
  have htj : tauEff mu records = aCoeff mu tau := by
    rw [tauEff,
      show (records.map fun r => (r.weight / totalWeight records) * aCoeff mu r.localSteps)
          = records.map fun r => (r.weight / totalWeight records) * aCoeff mu tau from
        List.map_congr_left (fun r hr => by rw [hsteps r hr]),
      List.sum_map_mul_right, renormalized_weights_sum_one records hW, one_mul]
  have hgj : normalizedGrad mu records j
      = (records.map fun r => (r.weight / totalWeight records) * r.delta j).sum
          * (aCoeff mu tau)⁻¹ := by
    rw [normalizedGrad,
      show (records.map fun r =>
            (r.weight / totalWeight records) * (r.delta j / aCoeff mu r.localSteps))
          = records.map fun r =>
            ((r.weight / totalWeight records) * r.delta j) * (aCoeff mu tau)⁻¹ from
        List.map_congr_left (fun r hr => by rw [hsteps r hr, div_eq_mul_inv]; ring),
      List.sum_map_mul_right]
  rw [fedAvgParams, htj, hgj, zero_mul, zero_add]
  congr 1
  field_simp

/-- Witness for C2 at a concrete input: two clients, both with 3 local steps,
momentum 0, global momentum 0, weights 1. -/
theorem aggregate_equal_steps_fedavg_witness :
    (aggregate 0 0 (GlobalState.mk (fun _ : Fin 1 => 10) fun _ => 0)
        [UpdateRecord.mk 0 (fun _ => 2) 3 1, UpdateRecord.mk 1 (fun _ => 4) 3 1]).map
        (fun st => st.params)
      = Except.ok (fedAvgParams (GlobalState.mk (fun _ : Fin 1 => 10) fun _ => 0)
        [UpdateRecord.mk 0 (fun _ => 2) 3 1, UpdateRecord.mk 1 (fun _ => 4) 3 1]) :=
  aggregate_equal_steps_fedavg 0
    (GlobalState.mk (fun _ : Fin 1 => 10) fun _ => 0)
    [UpdateRecord.mk 0 (fun _ => 2) 3 1, UpdateRecord.mk 1 (fun _ => 4) 3 1] 3
    le_rfl (by decide)
    (by intro r hr; rcases List.mem_cons.mp hr with rfl | hr2; · rfl
        · rcases List.mem_cons.mp hr2 with rfl | h3; · rfl
          · simp at h3)
    (by intro r hr; rcases List.mem_cons.mp hr with rfl | hr2; · norm_num
        · rcases List.mem_cons.mp hr2 with rfl | h3; · norm_num
          · simp at h3)
    (List.cons_ne_nil _ _)

/-- C3: when every client's record is invalid (or there are none at all),
aggregation raises `AggregationError` and the round leaves the global
parameters and momentum buffer identical to their pre-round values. -/
theorem aggregate_all_invalid_unchanged (mu gmf : ℚ) {d : ℕ} (s : GlobalState d)
    (records : List (UpdateRecord d)) (h : ∀ r ∈ records, r.localSteps = 0) :
    aggregate mu gmf s records = Except.error AggregationError.noValidRecords ∧
    runRound mu gmf s records = (s, some AggregationError.noValidRecords) := by
  have hfil : validRecords records = [] := by
    rw [validRecords, List.filter_eq_nil_iff]
    intro r hr
    simp [h r hr]
  have hagg : aggregate mu gmf s records = Except.error AggregationError.noValidRecords := by
    rw [aggregate, hfil]
    rfl
  exact ⟨hagg, by simp [runRound, hagg]⟩

/-- Witness for C3 at a concrete input: a single record with zero local
steps. -/
theorem aggregate_all_invalid_unchanged_witness :
    aggregate 0 0 (GlobalState.mk (fun _ : Fin 1 => 3) fun _ => 0)
        [UpdateRecord.mk 0 (fun _ => 1) 0 1]
      = Except.error AggregationError.noValidRecords ∧
    runRound 0 0 (GlobalState.mk (fun _ : Fin 1 => 3) fun _ => 0)
        [UpdateRecord.mk 0 (fun _ => 1) 0 1]
      = (GlobalState.mk (fun _ : Fin 1 => 3) fun _ => 0,
          some AggregationError.noValidRecords) :=
  aggregate_all_invalid_unchanged 0 0
    (GlobalState.mk (fun _ : Fin 1 => 3) fun _ => 0)
    [UpdateRecord.mk 0 (fun _ => 1) 0 1]
    (by intro r hr; rcases List.mem_cons.mp hr with rfl | h2; · rfl
        · simp at h2)

/-- C6: a round containing a zero-step record alongside at least one valid
record excludes the zero-step record from the sum, never divides by zero
(both the weight denominator and every used `a_i` are nonzero), and the
result is an `ok` state whose weights are renormalized to sum to 1 over the
remaining valid records. -/
theorem aggregate_excludes_zero_steps (mu gmf : ℚ) {d : ℕ} (s : GlobalState d)
    (r0 : UpdateRecord d) (records : List (UpdateRecord d))
    (h0 : r0.localSteps = 0)
    (hvr : ∃ r ∈ records, r.localSteps ≠ 0)
    (hw : ∀ r ∈ records, 0 < r.weight)
    (hmu : 0 ≤ mu) :
    aggregate mu gmf s (r0 :: records) = aggregate mu gmf s records ∧
    (∃ s2, aggregate mu gmf s (r0 :: records) = Except.ok s2) ∧
    totalWeight (validRecords records) ≠ 0 ∧
    (∀ r ∈ validRecords records, aCoeff mu r.localSteps ≠ 0) ∧
    ((validRecords records).map fun r =>
        r.weight / totalWeight (validRecords records)).sum = 1 := by
  have hcons : validRecords (r0 :: records) = validRecords records :=
    List.filter_cons_of_neg (by simp [h0])
  have hvne : validRecords records ≠ [] := by
    obtain ⟨r, hr, hns⟩ := hvr
    intro hnil
    have hmem : r ∈ validRecords records := by
      rw [validRecords, List.mem_filter]
      exact ⟨hr, by simpa using hns⟩
    rw [hnil] at hmem
    simp at hmem
  have hWpos : 0 < totalWeight (validRecords records) :=
    totalWeight_pos _ (fun r hr => hw r (List.mem_of_mem_filter hr)) hvne
  have heq : aggregate mu gmf s (r0 :: records) = aggregate mu gmf s records := by
    rw [aggregate, aggregate, hcons]
  refine ⟨heq, ?_, hWpos.ne', ?_, renormalized_weights_sum_one _ hWpos.ne'⟩
  · rw [heq, aggregate, if_neg (by simpa [List.isEmpty_iff] using hvne)]
    exact ⟨_, rfl⟩
  · intro r hr
    have hns : r.localSteps ≠ 0 := by
      have := (List.mem_filter.mp hr).2
      simpa using this
    exact (aCoeff_pos mu r.localSteps hmu hns).ne'

/-- Witness for C6 at a concrete input: one zero-step record next to one valid
3-step record. -/
theorem aggregate_excludes_zero_steps_witness :
    aggregate 0 0 (GlobalState.mk (fun _ : Fin 1 => 0) fun _ => 0)
        (UpdateRecord.mk 0 (fun _ => 5) 0 1 :: [UpdateRecord.mk 1 (fun _ => 2) 3 1])
      = aggregate 0 0 (GlobalState.mk (fun _ : Fin 1 => 0) fun _ => 0)
        [UpdateRecord.mk 1 (fun _ => 2) 3 1] ∧
    (∃ s2, aggregate 0 0 (GlobalState.mk (fun _ : Fin 1 => 0) fun _ => 0)
        (UpdateRecord.mk 0 (fun _ => 5) 0 1 :: [UpdateRecord.mk 1 (fun _ => 2) 3 1])
      = Except.ok s2) ∧
    totalWeight (validRecords [UpdateRecord.mk 1 (fun _ : Fin 1 => 2) 3 1]) ≠ 0 ∧
    (∀ r ∈ validRecords [UpdateRecord.mk 1 (fun _ : Fin 1 => 2) 3 1],
        aCoeff 0 r.localSteps ≠ 0) ∧
    ((validRecords [UpdateRecord.mk 1 (fun _ : Fin 1 => 2) 3 1]).map fun r =>
        r.weight / totalWeight (validRecords [UpdateRecord.mk 1 (fun _ : Fin 1 => 2) 3 1])).sum
      = 1 :=
  aggregate_excludes_zero_steps 0 0
    (GlobalState.mk (fun _ : Fin 1 => 0) fun _ => 0)
    (UpdateRecord.mk 0 (fun _ => 5) 0 1)
    [UpdateRecord.mk 1 (fun _ => 2) 3 1]
    rfl
    ⟨UpdateRecord.mk 1 (fun _ => 2) 3 1, by simp, by decide⟩
    (by intro r hr; rcases List.mem_cons.mp hr with rfl | h2; · norm_num
        · simp at h2)
    le_rfl

/-- The strategy configuration constructed by `main` (mirrors the
`FedNova(..., accept_failures=False, ...)` construction in `main.py`; the
argument values that are external callables or parameter blobs are not
modelled). -/
structure Strategy where
  accept_failures : Bool

/-- The strategy object `main` builds in step "4. Define your strategy". -/
def mainStrategy : Strategy :=
  { accept_failures := false }

/-- Outcome of one driver round with respect to dispatched-client failures. -/
inductive RoundOutcome where
  | failed
  | aggregated
deriving Repr, DecidableEq

/-- Modelled from the spec: "if a dispatched client's local training or
reporting raises, the round itself is failed rather than silently excluding
that client" — with `accept_failures = false` any client failure fails the
round, otherwise failures are dropped and aggregation proceeds. -/
def roundOutcome (st : Strategy) (numFailures : ℕ) : RoundOutcome :=
  if numFailures ≠ 0 ∧ st.accept_failures = false then RoundOutcome.failed
  else RoundOutcome.aggregated

/-- C7: the strategy is constructed with `accept_failures = false`, so every
round in which some dispatched client's training or reporting raises is
itself failed rather than silently excluding that client. -/
theorem mainStrategy_rejects_failures (n : ℕ) (h : n ≠ 0) :
    mainStrategy.accept_failures = false ∧
    roundOutcome mainStrategy n = RoundOutcome.failed := by
  refine ⟨rfl, ?_⟩
  rw [roundOutcome, if_pos ⟨h, rfl⟩]

/-- Witness for C7 with one failing client. -/
theorem mainStrategy_rejects_failures_witness :
    mainStrategy.accept_failures = false ∧
    roundOutcome mainStrategy 1 = RoundOutcome.failed :=
  mainStrategy_rejects_failures 1 (by decide)

/-- Configuration attributes of the experiment consumed by the embedded
pipeline (mirrors the hydra config fields read in `dataset.py` and
`main.py`). -/
structure Config where
  num_clients : ℕ
  num_epochs : ℕ
  batch_size : ℕ
  seed : ℕ
  NIID : Bool
  mode : String
deriving Repr, DecidableEq

/-- Modelled from the spec: the `DataPartitioner` object as `load_datasets`
consumes it — its partitions and its realized `ratio` list, where
`ratio[i]` = realized partition size / `M`, recomputed from the actual
allocations. -/
structure DataPartitioner where
  partitions : List (List ℕ)
  ratios : List ℚ

/-- Modelled from the spec: constructing the `DataPartitioner` computes the
partitions from the seed and recomputes each ratio from the realized
allocation. -/
def mkDataPartitioner (seed M : ℕ) (sizes : List ℚ) (isNonIID : Bool)
    (cd : ClassData) : DataPartitioner :=
  { partitions := dataPartition seed M sizes isNonIID cd
    ratios := (dataPartition seed M sizes isNonIID cd).map
      fun p => (p.length : ℚ) / (M : ℚ) }

/-- The `use` accessor of the partitioner: client `i`'s index partition. -/
def DataPartitioner.use (po : DataPartitioner) (i : ℕ) : List ℕ :=
  po.partitions.getD i []

/-- The equal target relative sizes requested by `load_datasets`
(`partition_sizes = [1.0 / config.num_clients for _ in range(config.num_clients)]`). -/
def partitionSizes (numClients : ℕ) : List ℚ :=
  List.replicate numClients (1 / (numClients : ℚ))

/-- A client's training data loader: the index partition it serves batches
from, its batch size, and whether it reshuffles. -/
structure TrainLoader where
  indices : List ℕ
  batchSize : ℕ
  shuffled : Bool
deriving Repr, DecidableEq

/-- The value `load_datasets` returns: per-client trainloaders, the test
loader batch size, and the ratio list. -/
structure LoadResult where
  trainloaders : List TrainLoader
  testloaderBatch : ℕ
  ratios : List ℚ

/-- The `load_datasets` pipeline of `dataset.py`, over a training set of size
`M` with external per-class data `cd`: requests `num_clients` equal relative
sizes, builds the partitioner, reads its realized ratio list unchanged, and
builds one trainloader per client from that client's partition. -/
def load_datasets (cfg : Config) (M : ℕ) (cd : ClassData) : LoadResult :=
  let partition_obj := mkDataPartitioner cfg.seed M (partitionSizes cfg.num_clients)
    cfg.NIID cd
  { trainloaders := (List.range cfg.num_clients).map fun i =>
      { indices := partition_obj.use i
        batchSize := cfg.batch_size
        shuffled := true }
    testloaderBatch := 2 * cfg.batch_size
    ratios := partition_obj.ratios }

/-- C8: `load_datasets` requests exactly `N` equal target relative sizes of
`1/N` each and returns exactly `N` client trainloaders, the `i`-th built from
partition `i`, together with a parallel ratio list of length `N`. -/
theorem load_datasets_structure (cfg : Config) (M : ℕ) (cd : ClassData) (i : ℕ)
    (h : i < cfg.num_clients) :
    partitionSizes cfg.num_clients
      = List.replicate cfg.num_clients (1 / (cfg.num_clients : ℚ)) ∧
    (load_datasets cfg M cd).trainloaders.length = cfg.num_clients ∧
    (load_datasets cfg M cd).trainloaders[i]?
      = some { indices := (mkDataPartitioner cfg.seed M (partitionSizes cfg.num_clients)
                  cfg.NIID cd).use i
               batchSize := cfg.batch_size
               shuffled := true } ∧
    (load_datasets cfg M cd).ratios.length = cfg.num_clients := by
  refine ⟨rfl, ?_, ?_, ?_⟩
  · simp [load_datasets]
  · simp [load_datasets, List.getElem?_map, List.getElem?_range h]
  · simp [load_datasets, mkDataPartitioner, dataPartition_length, partitionSizes]

/-- Witness for C8 with two clients and a four-sample IID dataset. -/
theorem load_datasets_structure_witness :
    partitionSizes (Config.mk 2 1 32 42 false "train").num_clients
      = List.replicate (Config.mk 2 1 32 42 false "train").num_clients
          (1 / ((Config.mk 2 1 32 42 false "train").num_clients : ℚ)) ∧
    (load_datasets (Config.mk 2 1 32 42 false "train") 4 ⟨[], []⟩).trainloaders.length
      = (Config.mk 2 1 32 42 false "train").num_clients ∧
    (load_datasets (Config.mk 2 1 32 42 false "train") 4 ⟨[], []⟩).trainloaders[1]?
      = some { indices := (mkDataPartitioner (Config.mk 2 1 32 42 false "train").seed 4
                  (partitionSizes (Config.mk 2 1 32 42 false "train").num_clients)
                  (Config.mk 2 1 32 42 false "train").NIID ⟨[], []⟩).use 1
               batchSize := (Config.mk 2 1 32 42 false "train").batch_size
               shuffled := true } ∧
    (load_datasets (Config.mk 2 1 32 42 false "train") 4 ⟨[], []⟩).ratios.length
      = (Config.mk 2 1 32 42 false "train").num_clients :=
  load_datasets_structure (Config.mk 2 1 32 42 false "train") 4 ⟨[], []⟩ 1 (by decide)

/-- The arguments `main` passes to `gen_client_fn` in step "3. Define your
clients" (external callables are not modelled; the `data_ratios` data flow
is kept). -/
structure ClientFnArgs where
  num_epochs : ℕ
  dataRatios : List ℚ

/-- The client-function arguments built by `main` from the `load_datasets`
result. -/
def mainClientFnArgs (cfg : Config) (M : ℕ) (cd : ClassData) : ClientFnArgs :=
  { num_epochs := cfg.num_epochs
    dataRatios := (load_datasets cfg M cd).ratios }

/-- C5: the ratio list returned by `load_datasets` is exactly the
partitioner's realized ratio list (`ratio[i]` = realized partition size / `M`,
recomputed from the actual allocations), returned unchanged, and `main`
forwards that same list unchanged as the clients' data ratios. -/
theorem load_datasets_realized_ratios (cfg : Config) (M : ℕ) (cd : ClassData)
    (i : ℕ) (h : i < cfg.num_clients) :
    (load_datasets cfg M cd).ratios
      = (dataPartition cfg.seed M (partitionSizes cfg.num_clients) cfg.NIID cd).map
          (fun p => (p.length : ℚ) / (M : ℚ)) ∧
    (load_datasets cfg M cd).ratios[i]?
      = some ((((dataPartition cfg.seed M (partitionSizes cfg.num_clients)
          cfg.NIID cd).getD i []).length : ℚ) / (M : ℚ)) ∧
    (mainClientFnArgs cfg M cd).dataRatios = (load_datasets cfg M cd).ratios := by
  have hlen : i < (dataPartition cfg.seed M (partitionSizes cfg.num_clients)
      cfg.NIID cd).length := by
    rw [dataPartition_length]
    simpa [partitionSizes] using h
  refine ⟨rfl, ?_, rfl⟩
  rw [show (load_datasets cfg M cd).ratios
      = (dataPartition cfg.seed M (partitionSizes cfg.num_clients) cfg.NIID cd).map
          (fun p => (p.length : ℚ) / (M : ℚ)) from rfl]
  rw [List.getElem?_map, List.getElem?_eq_getElem hlen]
  simp [List.getD_eq_getElem?_getD, List.getElem?_eq_getElem hlen]

/-- Witness for C5 with two clients and a four-sample IID dataset. -/
theorem load_datasets_realized_ratios_witness :
    (load_datasets (Config.mk 2 1 32 42 false "train") 4 ⟨[], []⟩).ratios
      = (dataPartition 42 4 (partitionSizes 2) false ⟨[], []⟩).map
          (fun p => (p.length : ℚ) / (4 : ℚ)) ∧
    (load_datasets (Config.mk 2 1 32 42 false "train") 4 ⟨[], []⟩).ratios[0]?
      = some ((((dataPartition 42 4 (partitionSizes 2) false ⟨[], []⟩).getD 0 []).length : ℚ)
          / (4 : ℚ)) ∧
    (mainClientFnArgs (Config.mk 2 1 32 42 false "train") 4 ⟨[], []⟩).dataRatios
      = (load_datasets (Config.mk 2 1 32 42 false "train") 4 ⟨[], []⟩).ratios :=
  load_datasets_realized_ratios (Config.mk 2 1 32 42 false "train") 4 ⟨[], []⟩ 0 (by decide)

/-- Observable effects of one `main` invocation (mirrors the control flow of
`main.py`: the test-mode branch loads the checkpoint, evaluates, and returns
before the clients, the strategy, the simulation and the CSV export are set
up). -/
structure MainEffects where
  loadedData : Bool
  loadedCheckpoint : Bool
  evaluatedTestSet : Bool
  builtClientFn : Bool
  builtStrategy : Bool
  startedSimulation : Bool
  wroteResultsCsv : Bool
  result : Option Unit
deriving Repr, DecidableEq

/-- The branch structure of `main`: after seeding and `load_datasets`, the
`cfg.mode == "test"` branch loads the checkpoint, instantiates the model,
evaluates on the test loader and returns `None`; otherwise `main` builds the
client function and the strategy, starts the simulation and writes the
results CSV. -/
def mainRun (cfg : Config) : MainEffects :=
  if cfg.mode = "test" then
    { loadedData := true
      loadedCheckpoint := true
      evaluatedTestSet := true
      builtClientFn := false
      builtStrategy := false
      startedSimulation := false
      wroteResultsCsv := false
      result := none }
  else
    { loadedData := true
      loadedCheckpoint := false
      evaluatedTestSet := false
      builtClientFn := true
      builtStrategy := true
      startedSimulation := true
      wroteResultsCsv := true
      result := none }

/-- C9: whenever `cfg.mode == "test"`, `main` loads the checkpointed model,
evaluates it on the test loader, and returns `None` without constructing any
client function or strategy, without starting any federated round, and
without writing any results CSV. -/
theorem mainRun_test_mode (cfg : Config) (h : cfg.mode = "test") :
    mainRun cfg
      = { loadedData := true
          loadedCheckpoint := true
          evaluatedTestSet := true
          builtClientFn := false
          builtStrategy := false
          startedSimulation := false
          wroteResultsCsv := false
          result := none } := by
  rw [mainRun, if_pos h]

/-- Witness for C9 at a concrete test-mode configuration. -/
theorem mainRun_test_mode_witness :
    mainRun (Config.mk 2 1 32 42 false "test")
      = { loadedData := true
          loadedCheckpoint := true
          evaluatedTestSet := true
          builtClientFn := false
          builtStrategy := false
          startedSimulation := false
          wroteResultsCsv := false
          result := none } :=
  mainRun_test_mode (Config.mk 2 1 32 42 false "test") rfl

/-- The test-mode state-dict construction of `main.py`:
`params_dict = zip(model.state_dict().keys(), checkpoint["arr_0"])` packed
into an ordered dict — Python `zip` stops at the shorter of the two
sequences. -/
def testModeParamsDict (keys : List String) (arrays : List (List ℚ)) :
    List (String × List ℚ) :=
  List.zip keys arrays

theorem map_fst_zip_truncated {α β : Type} (as : List β) (ks : List α)
    (h : as.length ≤ ks.length) :
    (List.zip ks as).map Prod.fst = ks.take as.length := by
  induction as generalizing ks with
  | nil => simp
  | cons a as ih =>
      cases ks with
      | nil => simp at h
      | cons k ks =>
          simp only [List.zip_cons_cons, List.map_cons, List.length_cons,
            List.take_succ_cons]
          rw [ih ks (by simpa using h)]

/-- C10: in test mode, checkpoint arrays are paired with the model's
state-dict keys positionally via `zip`, so a checkpoint with fewer arrays
than the model has parameters yields a silently truncated state dict at that
point — keys beyond the checkpoint length are dropped, no error is raised. -/
theorem testModeParamsDict_truncates (keys : List String) (arrays : List (List ℚ))
    (h : arrays.length < keys.length) :
    (testModeParamsDict keys arrays).length = arrays.length ∧
    (testModeParamsDict keys arrays).map Prod.fst = keys.take arrays.length := by
  constructor
  · rw [testModeParamsDict, List.length_zip]
    omega
  · exact map_fst_zip_truncated arrays keys (le_of_lt h)

/-- Witness for C10: three model keys, a checkpoint with only two arrays. -/
theorem testModeParamsDict_truncates_witness :
    (testModeParamsDict ["w1", "b1", "w2"] [[1], [2]]).length = ([[1], [2]] : List (List ℚ)).length ∧
    (testModeParamsDict ["w1", "b1", "w2"] [[1], [2]]).map Prod.fst
      = ["w1", "b1", "w2"].take ([[1], [2]] : List (List ℚ)).length :=
  testModeParamsDict_truncates ["w1", "b1", "w2"] [[1], [2]] (by decide)

/-- Modelled from the spec: one partitioning run persists the partitions and
the realized ratios, as a pure function of the configuration and the seed
(all pseudo-randomness derives from the seed set in `main`). -/
def partitionRun (cfg : Config) (M : ℕ) (cd : ClassData) :
    List (List ℕ) × List ℚ :=
  ((mkDataPartitioner cfg.seed M (partitionSizes cfg.num_clients) cfg.NIID cd).partitions,
   (mkDataPartitioner cfg.seed M (partitionSizes cfg.num_clients) cfg.NIID cd).ratios)

/-- C4: two runs of the program with the same configuration and the same seed
produce identical partitions — for every client `i`, the same index subset
and the same ratio in both runs. -/
theorem partitionRun_same_seed_deterministic (cfg : Config) (M : ℕ) (cd : ClassData)
    (i : ℕ) (run1 run2 : List (List ℕ) × List ℚ)
    (h1 : run1 = partitionRun cfg M cd) (h2 : run2 = partitionRun cfg M cd) :
    run1 = run2 ∧
    run1.1.getD i [] = run2.1.getD i [] ∧ run1.2.getD i 0 = run2.2.getD i 0 := by
  subst h1
  subst h2
  exact ⟨rfl, rfl, rfl⟩

/-- Witness for C4: two runs at a concrete seed and configuration, compared at
client 0. -/
theorem partitionRun_same_seed_deterministic_witness :
    partitionRun (Config.mk 2 1 32 42 false "train") 4 ⟨[], []⟩
      = partitionRun (Config.mk 2 1 32 42 false "train") 4 ⟨[], []⟩ ∧
    (partitionRun (Config.mk 2 1 32 42 false "train") 4 ⟨[], []⟩).1.getD 0 []
      = (partitionRun (Config.mk 2 1 32 42 false "train") 4 ⟨[], []⟩).1.getD 0 [] ∧
    (partitionRun (Config.mk 2 1 32 42 false "train") 4 ⟨[], []⟩).2.getD 0 0
      = (partitionRun (Config.mk 2 1 32 42 false "train") 4 ⟨[], []⟩).2.getD 0 0 :=
  partitionRun_same_seed_deterministic (Config.mk 2 1 32 42 false "train") 4 ⟨[], []⟩ 0
    (partitionRun (Config.mk 2 1 32 42 false "train") 4 ⟨[], []⟩)
    (partitionRun (Config.mk 2 1 32 42 false "train") 4 ⟨[], []⟩) rfl rfl
